import Mathlib

/-!
Verification development for the pokefuta-tracker repository.

Part 1 models the incremental dataset reconciliation pipeline (scraper /
dataset updater).  The repository ships only the documentation of that
pipeline (`SCHEMA.md` and the dataset schema document): the Python
implementation (`apps/scraper`) is not part of the source tree here, so the
pipeline is modelled from the specification (decision table of §4.1, schema
state-transition and sort rules) and every definition below that starts with
`Modelled from the spec:` says so.

Part 2 embeds the storage-key utilities `generateStorageKey` /
`parseStorageKey` of the photo-tracker storage adapter, translated directly
from the TypeScript source.
-/

namespace Pokefuta

/-- Modelled from the spec: record status enum (`status` field of a dataset
record, "active" or "deleted"); the Python updater is not in the tree. -/
inductive Status where
  | active
  | deleted
deriving DecidableEq

/-- Modelled from the spec: the comparable core projection of a record.  The
fields are a representative subset of `CORE_COMPARE_FIELDS` (title, lat, lng,
pokemons, address, tags); coordinates are modelled as scaled integers and
bookkeeping timestamps / status are excluded, as the whitelist requires. -/
structure CoreFields where
  title : String
  lat : Int
  lng : Int
  pokemons : List String
  address : String
  tags : List String
deriving DecidableEq

/-- Modelled from the spec: raw fields scraped from one detail page, before
the manual overlay (`dataset/title.tsv`) is applied. -/
structure Scraped where
  title : String
  lat : Int
  lng : Int
  pokemons : List String
  address : String
  tags : List String
deriving DecidableEq

/-- Modelled from the spec: one entry of the manual overlay table
(`dataset/title.tsv`), optional per-field overrides keyed by id. -/
structure Overlay where
  address : Option String
  tags : Option (List String)
deriving DecidableEq

/-- Modelled from the spec: the overlay table, a lookup from id to an
optional overlay entry, loaded once per run and never written. -/
abbrev OverlayTable := String → Option Overlay

/-- Modelled from the spec: one persisted dataset record (one NDJSON line):
id, comparable core fields, the three bookkeeping timestamps and the status.
Timestamps are modelled as natural numbers. -/
structure Record where
  id : String
  core : CoreFields
  firstSeen : Nat
  addedAt : Nat
  lastUpdated : Nat
  status : Status
deriving DecidableEq

/-- Modelled from the spec: result of fetching one identifier.  `NotFound`
covers both HTTP 404 and unparsable required fields (missing coordinates);
`TransientError` covers timeout / 5xx / rate limiting. -/
inductive FetchResult where
  | Found (s : Scraped)
  | NotFound
  | TransientError
deriving DecidableEq

/-- Modelled from the spec: the classified lifecycle transition reported for
one identifier in one run.  A no-op (unchanged) identifier produces no entry
in the per-run transition list. -/
inductive TransitionKind where
  | added
  | updated
  | deleted
  | resurrected
deriving DecidableEq

/-- Modelled from the spec: one entry of the per-run transition list. -/
structure Transition where
  id : String
  kind : TransitionKind
deriving DecidableEq

/-- Modelled from the spec: the Record Normalizer.  Overlay fields present in
the entry override scraped values for the same key; fields absent from the
overlay fall back to scraped values; array-valued fields are carried through
as literal ordered sequences. -/
def normalize (s : Scraped) (ov : Option Overlay) : CoreFields :=
  match ov with
  | none => ⟨s.title, s.lat, s.lng, s.pokemons, s.address, s.tags⟩
  | some o =>
      ⟨s.title, s.lat, s.lng, s.pokemons, o.address.getD s.address,
        o.tags.getD s.tags⟩

/-- Modelled from the spec: the in-memory full dataset (one record per
identifier, soft-deleted rows retained). -/
abbrev Dataset := List Record

/-- Modelled from the spec: lookup of the existing record for an identifier
in the store. -/
def findRecord (S : Dataset) (id : String) : Option Record :=
  S.find? (fun r => r.id == id)

/-- Modelled from the spec: in-place replacement of the record for an
identifier (the store never physically deletes, it only rewrites). -/
def updateRecord (S : Dataset) (id : String) (r' : Record) : Dataset :=
  S.map (fun r => if r.id = id then r' else r)

/-- Modelled from the spec: the per-identifier decision table of §4.1 of the
reconciliation engine.  Returns the updated store and the optional reported
transition (no-op rows report none). -/
def reconcileOne (now : Nat) (ov : OverlayTable) (S : Dataset) (id : String)
    (fr : FetchResult) : Dataset × Option Transition :=
  match findRecord S id, fr with
  | none, FetchResult.Found s =>
      (S ++ [⟨id, normalize s (ov id), now, now, now, Status.active⟩],
        some ⟨id, TransitionKind.added⟩)
  | none, FetchResult.NotFound => (S, none)
  | none, FetchResult.TransientError => (S, none)
  | some r, FetchResult.Found s =>
      match r.status with
      | Status.active =>
          if normalize s (ov id) = r.core then (S, none)
          else
            (updateRecord S id
                { r with core := normalize s (ov id), lastUpdated := now },
              some ⟨id, TransitionKind.updated⟩)
      | Status.deleted =>
          let r' := { r with core := normalize s (ov id), status := Status.active, lastUpdated := now }
          (updateRecord S id r', some ⟨id, TransitionKind.resurrected⟩)
  | some r, FetchResult.NotFound =>
      match r.status with
      | Status.active =>
          (updateRecord S id
              { r with status := Status.deleted, lastUpdated := now },
            some ⟨id, TransitionKind.deleted⟩)
      | Status.deleted => (S, none)
  | some _, FetchResult.TransientError => (S, none)

/-- Modelled from the spec: one reconciliation run over a batch of candidate
identifiers, processed sequentially against the in-memory store; returns the
updated store and the concatenated transition list. -/
def reconcile (now : Nat) (ov : OverlayTable) (fetch : String → FetchResult) :
    List String → Dataset → Dataset × List Transition
  | [], S => (S, [])
  | id :: rest, S =>
      let step := reconcileOne now ov S id (fetch id)
      let next := reconcile now ov fetch rest step.1
      (next.1, step.2.toList ++ next.2)

/-- Decimal value of a list of digit characters (most significant first). -/
def digitsVal (l : List Char) : Nat :=
  l.foldl (fun a c => 10 * a + (c.toNat - 48)) 0

/-- Modelled from the spec: numeric value of the numeric-string identifier,
used by the sort rule `int(id)`; identifiers assigned by the upstream source
are decimal digit strings, on which this agrees with `int`. -/
def idNum (s : String) : Nat := digitsVal s.data

/-- Modelled from the spec: sort rank of a status, active records order
before deleted records for identical identifiers. -/
def statusRank : Status → Nat
  | Status.active => 0
  | Status.deleted => 1

/-- Modelled from the spec: the store sort order — `int(id)` ascending, then
active before deleted. -/
def storeLe (a b : Record) : Prop :=
  idNum a.id < idNum b.id ∨
    (idNum a.id = idNum b.id ∧ statusRank a.status ≤ statusRank b.status)

instance : DecidableRel storeLe := fun a b => by
  unfold storeLe; exact inferInstance

instance : IsTotal Record storeLe := by
  constructor
  intro a b
  unfold storeLe
  omega

instance : IsTrans Record storeLe := by
  constructor
  intro a b c hab hbc
  unfold storeLe at *
  omega

/-- Modelled from the spec: serialization order of the dataset store,
enforced on every write (stable sort by the store sort key). -/
def serializeDataset (S : Dataset) : List Record := S.insertionSort storeLe

/-- Modelled from the spec: the public active-only export — the serialized
dataset restricted to records with `status = active`, same sort order. -/
def exportActive (S : Dataset) : List Record :=
  (serializeDataset S).filter (fun r => decide (r.status = Status.active))

/-- Modelled from the spec: the parameters of one scheduled reconciliation
run (run time, overlay snapshot, fetcher, candidate identifiers). -/
structure RunSpec where
  now : Nat
  ov : OverlayTable
  fetch : String → FetchResult
  cand : List String

/-- Modelled from the spec: executing a sequence of reconciliation runs from
an initial store state. -/
def runAll : List RunSpec → Dataset → Dataset
  | [], S => S
  | rs :: rest, S => runAll rest (reconcile rs.now rs.ov rs.fetch rs.cand S).1

/-- Helper predicate: the store is already in agreement with the fetcher and
overlay at an identifier, so reconciling this identifier is a no-op. -/
def settled (ov : OverlayTable) (fetch : String → FetchResult) (S : Dataset)
    (id : String) : Prop :=
  match findRecord S id, fetch id with
  | none, FetchResult.Found _ => False
  | none, _ => True
  | some r, FetchResult.Found s =>
      r.status = Status.active ∧ r.core = normalize s (ov id)
  | some r, FetchResult.NotFound => r.status = Status.deleted
  | some _, FetchResult.TransientError => True

/-- Helper predicate: every record in the store satisfies the timestamp
invariant and its timestamps do not exceed the given time bound. -/
def storeInv (now : Nat) (S : Dataset) : Prop :=
  ∀ r ∈ S, r.firstSeen = r.addedAt ∧ r.firstSeen ≤ r.lastUpdated ∧
    r.lastUpdated ≤ now

/-- Helper predicate: the run times of a run sequence are nondecreasing and
bounded below by the given time. -/
def timesMono : Nat → List RunSpec → Prop
  | _, [] => True
  | n, rs :: rest => n ≤ rs.now ∧ timesMono rs.now rest

/-- Demo core-field payload used by concrete witnesses. -/
def coreA : CoreFields := ⟨"t", 1, 2, ["A", "B"], "addr", ["x"]⟩

/-- Demo scraped payload matching `coreA` under an empty overlay. -/
def scrapedA : Scraped := ⟨"t", 1, 2, ["A", "B"], "addr", ["x"]⟩

/-- Demo active record. -/
def recA : Record := ⟨"1", coreA, 0, 0, 0, Status.active⟩

/-- Demo deleted record. -/
def recD : Record := ⟨"1", coreA, 0, 0, 0, Status.deleted⟩

/-- Demo empty overlay table. -/
def ovNone : OverlayTable := fun _ => none

/-- Demo fetcher that always reports a transient error. -/
def fetchTE : String → FetchResult := fun _ => FetchResult.TransientError

/-- Demo fetcher that always reports not-found. -/
def fetchNF : String → FetchResult := fun _ => FetchResult.NotFound

/-- Demo fetcher that always finds `scrapedA`. -/
def fetchA : String → FetchResult := fun _ => FetchResult.Found scrapedA
/-- Demo record produced by one Found run at time 5 from the empty store. -/
def demoRec : Record := ⟨"1", coreA, 5, 5, 5, Status.active⟩

/-- Demo core fields whose pokemon list holds the same elements as
`scrapedA` in the opposite order. -/
def coreP : CoreFields := ⟨"t", 1, 2, ["B", "A"], "addr", ["x"]⟩

/-- Demo active record carrying the reordered pokemon list. -/
def recP : Record := ⟨"1", coreP, 0, 0, 0, Status.active⟩

/-- Demo overlay table overriding the address of id "1". -/
def ovAddr : OverlayTable :=
  fun i => if i = "1" then some ⟨some "ov-addr", none⟩ else none

/-- Storage object type of the photo storage adapter: 'original' or
'thumb'. -/
inductive StorageType where
  | original
  | thumb
deriving DecidableEq

/-- Result shape of `parseStorageKey`: parsed type, thumbnail size (none
models null for original keys and NaN for non-numeric segments), parsed year
and month (none models NaN), and the filename segment (none models an
undefined destructuring position). -/
structure ParsedKey where
  type : StorageType
  size : Option Nat
  year : Option Nat
  month : Option Nat
  filename : Option String
deriving DecidableEq

/-- Decimal digit characters of a natural number, most significant first — a
model of JavaScript number-to-string for the nonnegative integers that occur
in storage keys. -/
def natToChars (n : Nat) : List Char :=
  if n < 10 then [Nat.digitChar n]
  else natToChars (n / 10) ++ [Nat.digitChar (n % 10)]
termination_by n
decreasing_by exact Nat.div_lt_self (by omega) (by omega)

/-- String form of a natural number (JavaScript template interpolation of a
number in `generateStorageKey`). -/
def natStr (n : Nat) : String := String.mk (natToChars n)

/-- Model of `String(month).padStart(2, '0')`: a single-digit month gets a
leading zero. -/
def pad2 (n : Nat) : String :=
  if n < 10 then String.mk ('0' :: natToChars n) else natStr n

/-- Embedded from `generateStorageKey` of the storage adapter: when the type
is thumb and the size is truthy the key is
photos/thumb/size/year/month/uuid.jpg, otherwise
photos/original/year/month/uuid.jpg.  The current date's year and month and
the random uuid are passed explicitly. -/
def generateStorageKey (ty : StorageType) (size : Option Nat)
    (year month : Nat) (uuid : String) : String :=
  match ty, size with
  | StorageType.thumb, some n =>
      if n ≠ 0 then
        "photos/thumb/" ++ natStr n ++ "/" ++ natStr year ++ "/" ++ pad2 month ++ "/" ++ uuid ++ ".jpg"
      else
        "photos/original/" ++ natStr year ++ "/" ++ pad2 month ++ "/" ++ uuid ++ ".jpg"
  | _, _ =>
      "photos/original/" ++ natStr year ++ "/" ++ pad2 month ++ "/" ++ uuid ++ ".jpg"

/-- Splitting a character list at every occurrence of a separator character
(model of JavaScript String.split with a one-character separator). -/
def splitChars (sep : Char) : List Char → List (List Char)
  | [] => [[]]
  | c :: cs =>
      if c = sep then [] :: splitChars sep cs
      else
        match splitChars sep cs with
        | [] => [[c]]
        | s :: rest => (c :: s) :: rest

/-- Model of `key.split('/')` from `parseStorageKey`. -/
def jsSplit (sep : Char) (s : String) : List String :=
  (splitChars sep s.data).map String.mk

/-- Model of JavaScript parseInt on an optional string: the value of the
longest leading run of decimal digits; none models NaN (no leading digit) or
an undefined argument. -/
def jsParseInt (s? : Option String) : Option Nat :=
  match s? with
  | none => none
  | some s =>
      let ds := s.data.takeWhile Char.isDigit
      if ds.isEmpty then none else some (digitsVal ds)

deriving instance DecidableEq for Except

/-- Embedded from `parseStorageKey` of the storage adapter: split on '/',
reject keys with fewer than 4 segments, then destructure
`[, type, sizeOrYear, year, month, filename]`; thumb keys read every field
from its own position, original keys read year, month and filename one
position earlier, exactly as the source comments note. -/
def parseStorageKey (key : String) : Except String ParsedKey :=
  let parts := jsSplit '/' key
  if parts.length < 4 then Except.error "Invalid storage key format"
  else
    let ty := parts[1]?
    let sizeOrYear := parts[2]?
    let year := parts[3]?
    let month := parts[4]?
    let filename := parts[5]?
    if ty = some "thumb" then
      Except.ok ⟨StorageType.thumb, jsParseInt sizeOrYear, jsParseInt year,
        jsParseInt month, filename⟩
    else
      Except.ok ⟨StorageType.original, none, jsParseInt sizeOrYear,
        jsParseInt year, month⟩

theorem findRecord_some_id {S : Dataset} {id : String} {r : Record}
    (h : findRecord S id = some r) : r.id = id := by
  have := List.find?_some h
  simpa using this

theorem findRecord_append (S : Dataset) (r' : Record) (id : String) :
    findRecord (S ++ [r']) id =
      (findRecord S id).or (if r'.id = id then some r' else none) := by
  unfold findRecord
  rw [List.find?_append]
  by_cases h : r'.id = id <;> simp [h]

theorem findRecord_updateRecord_self {S : Dataset} {id : String}
    {r r' : Record} (hr' : r'.id = id) (h : findRecord S id = some r) :
    findRecord (updateRecord S id r') id = some r' := by
  induction S with
  | nil => simp [findRecord] at h
  | cons a S ih =>
      by_cases ha : a.id = id
      · unfold updateRecord findRecord
        simp only [List.map_cons, if_pos ha]
        rw [List.find?_cons_of_pos _ (by simp [hr'])]
      · have hprev : findRecord S id = some r := by
          unfold findRecord at h
          rwa [List.find?_cons_of_neg _ (by simp [ha])] at h
        unfold updateRecord findRecord at *
        simp only [List.map_cons, if_neg ha]
        rw [List.find?_cons_of_neg _ (by simp [ha])]
        exact ih hprev

theorem findRecord_updateRecord_ne {S : Dataset} {id id' : String}
    {r' : Record} (h : id ≠ id') (hr' : r'.id = id') :
    findRecord (updateRecord S id' r') id = findRecord S id := by
  induction S with
  | nil => rfl
  | cons a S ih =>
      unfold updateRecord findRecord at *
      simp only [List.map_cons]
      by_cases ha : a.id = id'
      · rw [if_pos ha]
        rw [List.find?_cons_of_neg _ (by simp [hr']; intro hc; exact h hc.symm)]
        rw [List.find?_cons_of_neg _ (by simp [ha]; intro hc; exact h hc.symm)]
        exact ih
      · rw [if_neg ha]
        by_cases hb : a.id = id
        · rw [List.find?_cons_of_pos _ (by simp [hb]),
            List.find?_cons_of_pos _ (by simp [hb])]
        · rw [List.find?_cons_of_neg _ (by simp [hb]),
            List.find?_cons_of_neg _ (by simp [hb])]
          exact ih

theorem map_id_updateRecord {S : Dataset} {id : String} {r' : Record}
    (hr' : r'.id = id) :
    (updateRecord S id r').map Record.id = S.map Record.id := by
  induction S with
  | nil => rfl
  | cons a S ih =>
      unfold updateRecord at *
      simp only [List.map_cons]
      by_cases ha : a.id = id
      · simp [ha, hr', ih]
      · simp [ha, ih]

theorem findRecord_reconcileOne_ne (now : Nat) (ov : OverlayTable)
    (S : Dataset) {id id' : String} (fr : FetchResult) (h : id ≠ id') :
    findRecord (reconcileOne now ov S id' fr).1 id = findRecord S id := by
  cases hf : findRecord S id' with
  | none =>
      cases fr with
      | Found s =>
          unfold reconcileOne
          rw [hf]
          simp only []
          rw [findRecord_append]
          have hne : ¬ (id' = id) := fun hc => h hc.symm
          simp [hne]
      | NotFound => unfold reconcileOne; rw [hf]
      | TransientError => unfold reconcileOne; rw [hf]
  | some r =>
      have hid := findRecord_some_id hf
      cases fr with
      | Found s =>
          cases hs : r.status with
          | active =>
              by_cases hc : normalize s (ov id') = r.core
              · unfold reconcileOne
                rw [hf]
                simp only []
                rw [hs]
                simp [hc]
              · unfold reconcileOne
                rw [hf]
                simp only []
                rw [hs]
                simp only [if_neg hc]
                exact findRecord_updateRecord_ne h hid
          | deleted =>
              unfold reconcileOne
              rw [hf]
              simp only []
              rw [hs]
              exact findRecord_updateRecord_ne h hid
      | NotFound =>
          cases hs : r.status with
          | active =>
              unfold reconcileOne
              rw [hf]
              simp only []
              rw [hs]
              exact findRecord_updateRecord_ne h hid
          | deleted =>
              unfold reconcileOne
              rw [hf]
              simp only []
              rw [hs]
      | TransientError =>
          unfold reconcileOne
          rw [hf]

theorem reconcileOne_none_found {S : Dataset} {id : String} (now : Nat)
    (ov : OverlayTable) (s : Scraped) (hf : findRecord S id = none) :
    reconcileOne now ov S id (FetchResult.Found s) =
      (S ++ [⟨id, normalize s (ov id), now, now, now, Status.active⟩],
        some ⟨id, TransitionKind.added⟩) := by
  unfold reconcileOne
  rw [hf]

theorem reconcileOne_none_notFound {S : Dataset} {id : String} (now : Nat)
    (ov : OverlayTable) (hf : findRecord S id = none) :
    reconcileOne now ov S id FetchResult.NotFound = (S, none) := by
  unfold reconcileOne
  rw [hf]

theorem reconcileOne_transient (now : Nat) (ov : OverlayTable) (S : Dataset)
    (id : String) :
    reconcileOne now ov S id FetchResult.TransientError = (S, none) := by
  unfold reconcileOne
  cases findRecord S id <;> rfl

theorem reconcileOne_active_found_eq {S : Dataset} {id : String} {r : Record}
    {s : Scraped} (now : Nat) (ov : OverlayTable)
    (hf : findRecord S id = some r) (hs : r.status = Status.active)
    (hc : normalize s (ov id) = r.core) :
    reconcileOne now ov S id (FetchResult.Found s) = (S, none) := by
  unfold reconcileOne
  rw [hf]
  simp only []
  rw [hs]
  simp only []
  rw [if_pos hc]

theorem reconcileOne_active_found_ne {S : Dataset} {id : String} {r : Record}
    {s : Scraped} (now : Nat) (ov : OverlayTable)
    (hf : findRecord S id = some r) (hs : r.status = Status.active)
    (hc : normalize s (ov id) ≠ r.core) :
    reconcileOne now ov S id (FetchResult.Found s) =
      (updateRecord S id { r with core := normalize s (ov id), lastUpdated := now },
        some ⟨id, TransitionKind.updated⟩) := by
  unfold reconcileOne
  rw [hf]
  simp only []
  rw [hs]
  simp only []
  rw [if_neg hc]

theorem reconcileOne_deleted_found {S : Dataset} {id : String} {r : Record}
    (now : Nat) (ov : OverlayTable) (s : Scraped)
    (hf : findRecord S id = some r) (hs : r.status = Status.deleted) :
    reconcileOne now ov S id (FetchResult.Found s) =
      (updateRecord S id { r with core := normalize s (ov id), status := Status.active, lastUpdated := now },
        some ⟨id, TransitionKind.resurrected⟩) := by
  unfold reconcileOne
  rw [hf]
  simp only []
  rw [hs]

theorem reconcileOne_active_notFound {S : Dataset} {id : String} {r : Record}
    (now : Nat) (ov : OverlayTable)
    (hf : findRecord S id = some r) (hs : r.status = Status.active) :
    reconcileOne now ov S id FetchResult.NotFound =
      (updateRecord S id { r with status := Status.deleted, lastUpdated := now },
        some ⟨id, TransitionKind.deleted⟩) := by
  unfold reconcileOne
  rw [hf]
  simp only []
  rw [hs]

theorem reconcileOne_deleted_notFound {S : Dataset} {id : String} {r : Record}
    (now : Nat) (ov : OverlayTable)
    (hf : findRecord S id = some r) (hs : r.status = Status.deleted) :
    reconcileOne now ov S id FetchResult.NotFound = (S, none) := by
  unfold reconcileOne
  rw [hf]
  simp only []
  rw [hs]

theorem reconcile_nil (now : Nat) (ov : OverlayTable)
    (fetch : String → FetchResult) (S : Dataset) :
    reconcile now ov fetch [] S = (S, []) := rfl

theorem reconcile_cons (now : Nat) (ov : OverlayTable)
    (fetch : String → FetchResult) (id : String) (rest : List String)
    (S : Dataset) :
    reconcile now ov fetch (id :: rest) S =
      ((reconcile now ov fetch rest (reconcileOne now ov S id (fetch id)).1).1,
        (reconcileOne now ov S id (fetch id)).2.toList ++
          (reconcile now ov fetch rest (reconcileOne now ov S id (fetch id)).1).2) :=
  rfl

theorem reconcileOne_of_settled (now : Nat) (ov : OverlayTable)
    (fetch : String → FetchResult) (S : Dataset) (id : String)
    (h : settled ov fetch S id) :
    reconcileOne now ov S id (fetch id) = (S, none) := by
  unfold settled at h
  cases hf : findRecord S id with
  | none =>
      rw [hf] at h
      cases hg : fetch id with
      | Found s => rw [hg] at h; exact absurd h (by simp)
      | NotFound => exact reconcileOne_none_notFound now ov hf
      | TransientError => exact reconcileOne_transient now ov S id
  | some r =>
      rw [hf] at h
      cases hg : fetch id with
      | Found s =>
          rw [hg] at h
          simp only [] at h
          exact reconcileOne_active_found_eq now ov hf h.1 h.2.symm
      | NotFound =>
          rw [hg] at h
          simp only [] at h
          exact reconcileOne_deleted_notFound now ov hf h
      | TransientError => exact reconcileOne_transient now ov S id

theorem settled_reconcileOne_self (now : Nat) (ov : OverlayTable)
    (fetch : String → FetchResult) (S : Dataset) (id : String) :
    settled ov fetch (reconcileOne now ov S id (fetch id)).1 id := by
  cases hf : findRecord S id with
  | none =>
      cases hg : fetch id with
      | Found s =>
          rw [reconcileOne_none_found now ov s hf]
          unfold settled
          rw [findRecord_append, hf, hg]
          simp
      | NotFound =>
          rw [reconcileOne_none_notFound now ov hf]
          unfold settled
          rw [hf, hg]
          trivial
      | TransientError =>
          rw [reconcileOne_transient now ov S id]
          unfold settled
          rw [hf, hg]
          trivial
  | some r =>
      have hid := findRecord_some_id hf
      cases hg : fetch id with
      | Found s =>
          cases hs : r.status with
          | active =>
              by_cases hc : normalize s (ov id) = r.core
              · rw [reconcileOne_active_found_eq now ov hf hs hc]
                unfold settled
                rw [hf, hg]
                exact ⟨hs, hc.symm⟩
              · rw [reconcileOne_active_found_ne now ov hf hs hc]
                unfold settled
                simp only []
                have hfind : findRecord (updateRecord S id { r with core := normalize s (ov id), lastUpdated := now }) id = some { r with core := normalize s (ov id), lastUpdated := now } := findRecord_updateRecord_self hid hf
                rw [hfind, hg]
                exact ⟨hs, rfl⟩
          | deleted =>
              rw [reconcileOne_deleted_found now ov s hf hs]
              unfold settled
              simp only []
              have hfind : findRecord (updateRecord S id { r with core := normalize s (ov id), status := Status.active, lastUpdated := now }) id = some { r with core := normalize s (ov id), status := Status.active, lastUpdated := now } := findRecord_updateRecord_self hid hf
              rw [hfind, hg]
              exact ⟨rfl, rfl⟩
      | NotFound =>
          cases hs : r.status with
          | active =>
              rw [reconcileOne_active_notFound now ov hf hs]
              unfold settled
              simp only []
              have hfind : findRecord (updateRecord S id { r with status := Status.deleted, lastUpdated := now }) id = some { r with status := Status.deleted, lastUpdated := now } := findRecord_updateRecord_self hid hf
              rw [hfind, hg]
          | deleted =>
              rw [reconcileOne_deleted_notFound now ov hf hs]
              unfold settled
              rw [hf, hg]
              exact hs
      | TransientError =>
          rw [reconcileOne_transient now ov S id]
          unfold settled
          rw [hf, hg]
          trivial

theorem settled_reconcileOne_other {ov : OverlayTable}
    {fetch : String → FetchResult} {S : Dataset} {id id' : String}
    (now : Nat) (fr : FetchResult) (h : settled ov fetch S id)
    (hne : id ≠ id') :
    settled ov fetch (reconcileOne now ov S id' fr).1 id := by
  have heq := findRecord_reconcileOne_ne now ov S fr hne
  unfold settled at *
  rw [heq]
  exact h

theorem settled_reconcile {ov : OverlayTable} {fetch : String → FetchResult}
    {S : Dataset} {id : String} (now : Nat) (cand : List String)
    (h : settled ov fetch S id) :
    settled ov fetch (reconcile now ov fetch cand S).1 id := by
  induction cand generalizing S with
  | nil => exact h
  | cons id' rest ih =>
      rw [reconcile_cons]
      by_cases he : id = id'
      · subst he
        have h1 := reconcileOne_of_settled now ov fetch S id h
        rw [h1]
        exact ih h
      · exact ih (settled_reconcileOne_other now (fetch id') h he)

theorem settled_after_mem {ov : OverlayTable} {fetch : String → FetchResult}
    {id : String} (now : Nat) (cand : List String) (S : Dataset)
    (hmem : id ∈ cand) :
    settled ov fetch (reconcile now ov fetch cand S).1 id := by
  induction cand generalizing S with
  | nil => cases hmem
  | cons id' rest ih =>
      rw [reconcile_cons]
      rcases List.mem_cons.mp hmem with he | hr
      · subst he
        exact settled_reconcile now rest (settled_reconcileOne_self now ov fetch S id)
      · exact ih _ hr

theorem reconcile_of_settled (now : Nat) (ov : OverlayTable)
    (fetch : String → FetchResult) (cand : List String) (S : Dataset)
    (h : ∀ id ∈ cand, settled ov fetch S id) :
    reconcile now ov fetch cand S = (S, []) := by
  induction cand with
  | nil => rfl
  | cons id rest ih =>
      rw [reconcile_cons]
      have h1 := reconcileOne_of_settled now ov fetch S id (h id (by simp))
      rw [h1]
      have h2 := ih (fun i hi => h i (by simp [hi]))
      rw [h2]
      simp

theorem reconcile_single (now : Nat) (ov : OverlayTable)
    (f : String → FetchResult) (id : String) (S : Dataset) :
    reconcile now ov f [id] S =
      ((reconcileOne now ov S id (f id)).1,
        (reconcileOne now ov S id (f id)).2.toList) := by
  rw [reconcile_cons, reconcile_nil]
  simp

/-- C1: idempotence of reconcile — re-running the engine immediately after a
run, with the same candidates, fetch results and overlay, returns a store
whose serialization equals the first run's serialized output and reports an
empty transition list. -/
theorem reconcile_idempotent (now₁ now₂ : Nat) (ov : OverlayTable)
    (fetch : String → FetchResult) (cand : List String) (S : Dataset) :
    serializeDataset (reconcile now₂ ov fetch cand (reconcile now₁ ov fetch cand S).1).1
      = serializeDataset (reconcile now₁ ov fetch cand S).1
    ∧ (reconcile now₂ ov fetch cand (reconcile now₁ ov fetch cand S).1).2 = [] := by
  have hset : ∀ id ∈ cand, settled ov fetch (reconcile now₁ ov fetch cand S).1 id :=
    fun id hid => settled_after_mem now₁ cand S hid
  have h2 := reconcile_of_settled now₂ ov fetch cand _ hset
  rw [h2]
  exact ⟨rfl, rfl⟩

/-- C2: deletion versus transient distinction — for an existing active
record, a TransientError run leaves the store (hence status and lastUpdated)
unchanged, while a NotFound run flips the record to deleted and stamps
lastUpdated with the run time. -/
theorem transient_vs_notfound (S : Dataset) (id : String) (r : Record)
    (ov : OverlayTable) (now : Nat)
    (hfind : findRecord S id = some r) (hact : r.status = Status.active) :
    (∀ f : String → FetchResult, f id = FetchResult.TransientError →
       (reconcile now ov f [id] S).1 = S ∧
         findRecord (reconcile now ov f [id] S).1 id = some r) ∧
    (∀ f : String → FetchResult, f id = FetchResult.NotFound →
       findRecord (reconcile now ov f [id] S).1 id =
         some { r with status := Status.deleted, lastUpdated := now }) := by
  constructor
  · intro f hf
    rw [reconcile_single, hf, reconcileOne_transient]
    exact ⟨rfl, hfind⟩
  · intro f hf
    rw [reconcile_single, hf, reconcileOne_active_notFound now ov hfind hact]
    simp only []
    have hid : r.id = id := findRecord_some_id hfind
    exact findRecord_updateRecord_self hid hfind

/-- C3: resurrection — a deleted record whose identifier is Found again
returns to active with freshly normalized core fields and a new lastUpdated,
keeps firstSeen (and addedAt) untouched, and the run reports a single
resurrected transition for the identifier. -/
theorem resurrection (S : Dataset) (id : String) (r : Record) (s : Scraped)
    (ov : OverlayTable) (now : Nat) (f : String → FetchResult)
    (hfind : findRecord S id = some r) (hdel : r.status = Status.deleted)
    (hf : f id = FetchResult.Found s) :
    findRecord (reconcile now ov f [id] S).1 id =
      some { r with core := normalize s (ov id), status := Status.active, lastUpdated := now }
    ∧ (reconcile now ov f [id] S).2 = [⟨id, TransitionKind.resurrected⟩] := by
  rw [reconcile_single, hf, reconcileOne_deleted_found now ov s hfind hdel]
  simp only [Option.toList]
  have hid : r.id = id := findRecord_some_id hfind
  exact ⟨findRecord_updateRecord_self hid hfind, trivial⟩

/-- Witness for C2 at a concrete store, record and run time. -/
theorem transient_vs_notfound_witness :
    (reconcile 5 ovNone fetchTE ["1"] [recA]).1 = [recA]
    ∧ findRecord (reconcile 5 ovNone fetchNF ["1"] [recA]).1 "1"
        = some { recA with status := Status.deleted, lastUpdated := 5 } := by
  have h := transient_vs_notfound [recA] "1" recA ovNone 5 (by decide) (by decide)
  exact ⟨(h.1 fetchTE rfl).1, h.2 fetchNF rfl⟩

theorem findRecord_reconcile_absent (now : Nat) (ov : OverlayTable)
    (fetch : String → FetchResult) (cand : List String) (S : Dataset)
    (id : String) (habs : findRecord S id = none)
    (hnf : ∀ s, fetch id ≠ FetchResult.Found s) :
    findRecord (reconcile now ov fetch cand S).1 id = none := by
  induction cand generalizing S with
  | nil => exact habs
  | cons id' rest ih =>
      rw [reconcile_cons]
      by_cases he : id = id'
      · subst he
        cases hg : fetch id with
        | Found s => exact absurd hg (hnf s)
        | NotFound =>
            rw [reconcileOne_none_notFound now ov habs]
            exact ih S habs
        | TransientError =>
            rw [reconcileOne_transient now ov S id]
            exact ih S habs
      · refine ih _ ?_
        rw [findRecord_reconcileOne_ne now ov S (fetch id') he]
        exact habs

/-- C4: no premature materialization — starting from a store with no record
for an identifier, any sequence of reconcile runs in which the fetcher never
returns Found for that identifier leaves the store without a record for it. -/
theorem no_premature_materialization (runs : List RunSpec) (S : Dataset)
    (id : String) (habs : findRecord S id = none)
    (hnf : ∀ rs ∈ runs, ∀ s, rs.fetch id ≠ FetchResult.Found s) :
    findRecord (runAll runs S) id = none := by
  induction runs generalizing S with
  | nil => exact habs
  | cons rs rest ih =>
      unfold runAll
      refine ih _ ?_ (fun q hq s => hnf q (by simp [hq]) s)
      exact findRecord_reconcile_absent rs.now rs.ov rs.fetch rs.cand S id habs
        (hnf rs (by simp))

/-- Witness for C4 at a concrete run sequence (one NotFound run and one
TransientError run over an empty store). -/
theorem no_premature_materialization_witness :
    findRecord (runAll [⟨3, ovNone, fetchNF, ["1"]⟩, ⟨5, ovNone, fetchTE, ["1"]⟩] []) "1" = none := by
  refine no_premature_materialization _ _ _ rfl ?_
  intro rs hrs s hc
  rcases List.mem_cons.mp hrs with h | h
  · subst h
    simp [fetchNF] at hc
  · rcases List.mem_cons.mp h with h2 | h2
    · subst h2
      simp [fetchTE] at hc
    · cases h2

theorem storeInv_mono {n m : Nat} {S : Dataset} (h : storeInv n S)
    (hnm : n ≤ m) : storeInv m S :=
  fun r hr => ⟨(h r hr).1, (h r hr).2.1, le_trans (h r hr).2.2 hnm⟩

theorem storeInv_updateRecord {S : Dataset} {id : String} {r' : Record}
    {now : Nat} (h : storeInv now S)
    (hr' : r'.firstSeen = r'.addedAt ∧ r'.firstSeen ≤ r'.lastUpdated ∧ r'.lastUpdated ≤ now) :
    storeInv now (updateRecord S id r') := by
  intro q hq
  unfold updateRecord at hq
  rcases List.mem_map.mp hq with ⟨a, ha, rfl⟩
  by_cases hc : a.id = id
  · rw [if_pos hc]
    exact hr'
  · rw [if_neg hc]
    exact h a ha

theorem storeInv_reconcileOne (now : Nat) (ov : OverlayTable) (S : Dataset)
    (id : String) (fr : FetchResult) (h : storeInv now S) :
    storeInv now (reconcileOne now ov S id fr).1 := by
  cases hf : findRecord S id with
  | none =>
      cases fr with
      | Found s =>
          rw [reconcileOne_none_found now ov s hf]
          intro q hq
          rcases List.mem_append.mp hq with hq | hq
          · exact h q hq
          · rcases List.mem_singleton.mp hq with rfl
            exact ⟨rfl, le_refl _, le_refl _⟩
      | NotFound =>
          rw [reconcileOne_none_notFound now ov hf]
          exact h
      | TransientError =>
          rw [reconcileOne_transient now ov S id]
          exact h
  | some r =>
      have hmem : r ∈ S := List.mem_of_find?_eq_some hf
      have hr := h r hmem
      cases fr with
      | Found s =>
          cases hs : r.status with
          | active =>
              by_cases hc : normalize s (ov id) = r.core
              · rw [reconcileOne_active_found_eq now ov hf hs hc]
                exact h
              · rw [reconcileOne_active_found_ne now ov hf hs hc]
                exact storeInv_updateRecord h
                  ⟨hr.1, le_trans hr.2.1 hr.2.2, le_refl _⟩
          | deleted =>
              rw [reconcileOne_deleted_found now ov s hf hs]
              exact storeInv_updateRecord h
                ⟨hr.1, le_trans hr.2.1 hr.2.2, le_refl _⟩
      | NotFound =>
          cases hs : r.status with
          | active =>
              rw [reconcileOne_active_notFound now ov hf hs]
              exact storeInv_updateRecord h
                ⟨hr.1, le_trans hr.2.1 hr.2.2, le_refl _⟩
          | deleted =>
              rw [reconcileOne_deleted_notFound now ov hf hs]
              exact h
      | TransientError =>
          rw [reconcileOne_transient now ov S id]
          exact h

theorem storeInv_reconcile (now : Nat) (ov : OverlayTable)
    (fetch : String → FetchResult) (cand : List String) (S : Dataset)
    (h : storeInv now S) : storeInv now (reconcile now ov fetch cand S).1 := by
  induction cand generalizing S with
  | nil => exact h
  | cons id rest ih =>
      rw [reconcile_cons]
      exact ih _ (storeInv_reconcileOne now ov S id (fetch id) h)

/-- C5: timestamp invariant — starting from any store satisfying the
invariant (in particular the empty store, so that every record is created by
some run), after any sequence of runs with nondecreasing run times every
record satisfies firstSeen = addedAt and firstSeen ≤ lastUpdated. -/
theorem timestamp_invariant (runs : List RunSpec) (S : Dataset) (n₀ : Nat)
    (hS : storeInv n₀ S) (hmono : timesMono n₀ runs) :
    ∀ r ∈ runAll runs S, r.firstSeen = r.addedAt ∧ r.firstSeen ≤ r.lastUpdated := by
  induction runs generalizing S n₀ with
  | nil => exact fun r hr => ⟨(hS r hr).1, (hS r hr).2.1⟩
  | cons rs rest ih =>
      unfold runAll
      unfold timesMono at hmono
      exact ih _ rs.now
        (storeInv_reconcile rs.now rs.ov rs.fetch rs.cand S (storeInv_mono hS hmono.1))
        hmono.2

/-- Witness for C5: the record created by a concrete run satisfies the
timestamp invariant. -/
theorem timestamp_invariant_witness :
    demoRec.firstSeen = demoRec.addedAt ∧ demoRec.firstSeen ≤ demoRec.lastUpdated :=
  timestamp_invariant [⟨5, ovNone, fetchA, ["1"]⟩] [] 0
    (fun r hr => absurd hr (List.not_mem_nil r))
    ⟨Nat.zero_le 5, trivial⟩ demoRec (by decide)

/-- Witness for C3 at a concrete store, record and run time. -/
theorem resurrection_witness :
    findRecord (reconcile 5 ovNone fetchA ["1"] [recD]).1 "1"
      = some { recD with core := normalize scrapedA (ovNone "1"), status := Status.active, lastUpdated := 5 }
    ∧ (reconcile 5 ovNone fetchA ["1"] [recD]).2 = [⟨"1", TransitionKind.resurrected⟩] :=
  resurrection [recD] "1" recD scrapedA ovNone 5 fetchA (by decide) (by decide) rfl


theorem not_mem_ids_of_findRecord_none {S : Dataset} {id : String}
    (hf : findRecord S id = none) : id ∉ S.map Record.id := by
  intro hmem
  rcases List.mem_map.mp hmem with ⟨r, hr, rfl⟩
  have := List.find?_eq_none.mp hf r hr
  simp at this

theorem exists_id_updateRecord {S : Dataset} {id : String} {r r' : Record}
    (hr' : r'.id = id) (hr : r ∈ S) :
    ∃ q ∈ updateRecord S id r', q.id = r.id := by
  refine ⟨if r.id = id then r' else r, List.mem_map_of_mem _ hr, ?_⟩
  by_cases hc : r.id = id
  · rw [if_pos hc, hr', hc]
  · rw [if_neg hc]

theorem nodup_ids_updateRecord {S : Dataset} {id : String} {r' : Record}
    (hr' : r'.id = id) (h : (S.map Record.id).Nodup) :
    ((updateRecord S id r').map Record.id).Nodup := by
  rw [map_id_updateRecord hr']
  exact h

theorem nodup_ids_reconcileOne (now : Nat) (ov : OverlayTable) (S : Dataset)
    (id : String) (fr : FetchResult) (h : (S.map Record.id).Nodup) :
    ((reconcileOne now ov S id fr).1.map Record.id).Nodup := by
  cases hf : findRecord S id with
  | none =>
      cases fr with
      | Found s =>
          rw [reconcileOne_none_found now ov s hf]
          rw [List.map_append, List.nodup_append]
          refine ⟨h, by simp, ?_⟩
          intro a ha hb
          simp only [List.map_cons, List.map_nil, List.mem_singleton] at hb
          subst hb
          exact not_mem_ids_of_findRecord_none hf ha
      | NotFound =>
          rw [reconcileOne_none_notFound now ov hf]
          exact h
      | TransientError =>
          rw [reconcileOne_transient now ov S id]
          exact h
  | some r =>
      have hid := findRecord_some_id hf
      cases fr with
      | Found s =>
          cases hs : r.status with
          | active =>
              by_cases hc : normalize s (ov id) = r.core
              · rw [reconcileOne_active_found_eq now ov hf hs hc]
                exact h
              · rw [reconcileOne_active_found_ne now ov hf hs hc]
                exact nodup_ids_updateRecord hid h
          | deleted =>
              rw [reconcileOne_deleted_found now ov s hf hs]
              exact nodup_ids_updateRecord hid h
      | NotFound =>
          cases hs : r.status with
          | active =>
              rw [reconcileOne_active_notFound now ov hf hs]
              exact nodup_ids_updateRecord hid h
          | deleted =>
              rw [reconcileOne_deleted_notFound now ov hf hs]
              exact h
      | TransientError =>
          rw [reconcileOne_transient now ov S id]
          exact h

theorem nodup_ids_reconcile (now : Nat) (ov : OverlayTable)
    (fetch : String → FetchResult) (cand : List String) (S : Dataset)
    (h : (S.map Record.id).Nodup) :
    ((reconcile now ov fetch cand S).1.map Record.id).Nodup := by
  induction cand generalizing S with
  | nil => exact h
  | cons id rest ih =>
      rw [reconcile_cons]
      exact ih _ (nodup_ids_reconcileOne now ov S id (fetch id) h)

theorem exists_id_reconcileOne (now : Nat) (ov : OverlayTable) (S : Dataset)
    (id : String) (fr : FetchResult) {r : Record} (hr : r ∈ S) :
    ∃ q ∈ (reconcileOne now ov S id fr).1, q.id = r.id := by
  cases hf : findRecord S id with
  | none =>
      cases fr with
      | Found s =>
          rw [reconcileOne_none_found now ov s hf]
          exact ⟨r, List.mem_append_left _ hr, rfl⟩
      | NotFound =>
          rw [reconcileOne_none_notFound now ov hf]
          exact ⟨r, hr, rfl⟩
      | TransientError =>
          rw [reconcileOne_transient now ov S id]
          exact ⟨r, hr, rfl⟩
  | some r₀ =>
      have hid := findRecord_some_id hf
      cases fr with
      | Found s =>
          cases hs : r₀.status with
          | active =>
              by_cases hc : normalize s (ov id) = r₀.core
              · rw [reconcileOne_active_found_eq now ov hf hs hc]
                exact ⟨r, hr, rfl⟩
              · rw [reconcileOne_active_found_ne now ov hf hs hc]
                exact exists_id_updateRecord hid hr
          | deleted =>
              rw [reconcileOne_deleted_found now ov s hf hs]
              exact exists_id_updateRecord hid hr
      | NotFound =>
          cases hs : r₀.status with
          | active =>
              rw [reconcileOne_active_notFound now ov hf hs]
              exact exists_id_updateRecord hid hr
          | deleted =>
              rw [reconcileOne_deleted_notFound now ov hf hs]
              exact ⟨r, hr, rfl⟩
      | TransientError =>
          rw [reconcileOne_transient now ov S id]
          exact ⟨r, hr, rfl⟩

theorem exists_id_reconcile (now : Nat) (ov : OverlayTable)
    (fetch : String → FetchResult) (cand : List String) (S : Dataset)
    {r : Record} (hr : r ∈ S) :
    ∃ q ∈ (reconcile now ov fetch cand S).1, q.id = r.id := by
  induction cand generalizing S r with
  | nil => exact ⟨r, hr, rfl⟩
  | cons id rest ih =>
      rw [reconcile_cons]
      rcases exists_id_reconcileOne now ov S id (fetch id) hr with ⟨q, hq, hqid⟩
      rcases ih _ hq with ⟨p, hp, hpid⟩
      exact ⟨p, hp, hpid.trans hqid⟩

/-- C6: active export correctness — the active-only export contains exactly
the records of the dataset whose status is active, it is sorted ascending by
numeric identifier, and no deleted record appears in it. -/
theorem exportActive_spec (ds : Dataset) :
    (∀ r, r ∈ exportActive ds ↔ (r ∈ ds ∧ r.status = Status.active))
    ∧ List.Pairwise (fun a b => idNum a.id ≤ idNum b.id) (exportActive ds)
    ∧ ∀ r ∈ exportActive ds, r.status ≠ Status.deleted := by
  have hperm : (serializeDataset ds).Perm ds := List.perm_insertionSort storeLe ds
  refine ⟨?_, ?_, ?_⟩
  · intro r
    unfold exportActive
    rw [List.mem_filter]
    constructor
    · rintro ⟨hmem, hp⟩
      exact ⟨hperm.mem_iff.mp hmem, of_decide_eq_true hp⟩
    · rintro ⟨hmem, hst⟩
      exact ⟨hperm.mem_iff.mpr hmem, decide_eq_true hst⟩
  · have hs : List.Sorted storeLe (serializeDataset ds) :=
      List.sorted_insertionSort storeLe ds
    have hf := List.Pairwise.filter (R := storeLe)
      (fun r => decide (r.status = Status.active)) hs
    exact List.Pairwise.imp (fun hab => by unfold storeLe at hab; omega) hf
  · intro r hr
    unfold exportActive at hr
    have hst := of_decide_eq_true (List.mem_filter.mp hr).2
    rw [hst]
    exact fun hc => Status.noConfusion hc

/-- C7: store ordering and uniqueness — after a reconcile run over a store
with unique identifiers, the serialized dataset is sorted by numeric id
ascending with active before deleted, still has exactly one record per id,
and retains a record for every identifier the store held before the run. -/
theorem store_write_invariants (now : Nat) (ov : OverlayTable)
    (fetch : String → FetchResult) (cand : List String) (S : Dataset)
    (h : (S.map Record.id).Nodup) :
    List.Sorted storeLe (serializeDataset (reconcile now ov fetch cand S).1)
    ∧ ((serializeDataset (reconcile now ov fetch cand S).1).map Record.id).Nodup
    ∧ ∀ r ∈ S, ∃ q ∈ serializeDataset (reconcile now ov fetch cand S).1, q.id = r.id := by
  have hperm : (serializeDataset (reconcile now ov fetch cand S).1).Perm
      (reconcile now ov fetch cand S).1 :=
    List.perm_insertionSort storeLe _
  refine ⟨List.sorted_insertionSort storeLe _, ?_, ?_⟩
  · exact ((hperm.map Record.id).nodup_iff).mpr
      (nodup_ids_reconcile now ov fetch cand S h)
  · intro r hr
    rcases exists_id_reconcile now ov fetch cand S hr with ⟨q, hq, hqid⟩
    exact ⟨q, hperm.mem_iff.mpr hq, hqid⟩

/-- Witness for C7 at a concrete store (one active record) and a run adding
a second identifier. -/
theorem store_write_invariants_witness :
    List.Sorted storeLe (serializeDataset (reconcile 5 ovNone fetchA ["2"] [recA]).1)
    ∧ ((serializeDataset (reconcile 5 ovNone fetchA ["2"] [recA]).1).map Record.id).Nodup
    ∧ ∃ q ∈ serializeDataset (reconcile 5 ovNone fetchA ["2"] [recA]).1, q.id = recA.id := by
  have h := store_write_invariants 5 ovNone fetchA ["2"] [recA] (by decide)
  exact ⟨h.1, h.2.1, h.2.2 recA (by decide)⟩



/-- C8: ordered-sequence array comparison — the Normalizer carries
array-valued core fields through literally (no deduplication or sorting),
and an active record whose stored pokemon list is a permutation of, but not
equal to, the freshly normalized list (all other core fields equal) is
classified as updated. -/
theorem ordered_array_comparison :
    (∀ (s : Scraped) (ov : Option Overlay), (normalize s ov).pokemons = s.pokemons)
    ∧ (∀ s : Scraped, (normalize s none).tags = s.tags)
    ∧ (∀ (S : Dataset) (id : String) (r : Record) (s : Scraped)
        (f : String → FetchResult) (ov : OverlayTable) (now : Nat),
        findRecord S id = some r → r.status = Status.active →
        f id = FetchResult.Found s →
        r.core.pokemons ≠ (normalize s (ov id)).pokemons →
        r.core.pokemons.Perm (normalize s (ov id)).pokemons →
        { r.core with pokemons := (normalize s (ov id)).pokemons } = normalize s (ov id) →
        (reconcile now ov f [id] S).2 = [⟨id, TransitionKind.updated⟩]) := by
  refine ⟨?_, ?_, ?_⟩
  · intro s ov
    cases ov <;> rfl
  · intro s
    rfl
  · intro S id r s f ov now hfind hact hf hne hperm heq
    have hc : normalize s (ov id) ≠ r.core := by
      intro he
      exact hne (by rw [he])
    rw [reconcile_single, hf, reconcileOne_active_found_ne now ov hfind hact hc]
    rfl

/-- Witness for C8: a stored pokemon list ["B","A"] against a fetched list
["A","B"] (same elements, different order) yields an updated transition. -/
theorem ordered_array_comparison_witness :
    (reconcile 5 ovNone fetchA ["1"] [recP]).2 = [⟨"1", TransitionKind.updated⟩] :=
  ordered_array_comparison.2.2 [recP] "1" recP scrapedA fetchA ovNone 5
    (by decide) (by decide) rfl (by decide) (by decide) (by decide)

/-- C9: overlay precedence — an overlay value for a key always overrides the
scraped value, an absent overlay entry falls back to the scraped value, and
removing the overlay entry between two runs with unchanged scraped data is
detected as an updated (core-fields changed) transition. -/
theorem overlay_precedence :
    (∀ (s : Scraped) (o : Overlay) (v : String),
        o.address = some v → (normalize s (some o)).address = v)
    ∧ (∀ (s : Scraped) (o : Overlay),
        o.address = none → (normalize s (some o)).address = s.address)
    ∧ (∀ s : Scraped, (normalize s none).address = s.address)
    ∧ (∀ (S₀ : Dataset) (id : String) (s : Scraped) (f : String → FetchResult)
        (ov₁ ov₂ : OverlayTable) (o : Overlay) (v : String) (now₁ now₂ : Nat),
        findRecord S₀ id = none → f id = FetchResult.Found s →
        ov₁ id = some o → o.address = some v → v ≠ s.address →
        ov₂ id = none →
        (reconcile now₂ ov₂ f [id] (reconcile now₁ ov₁ f [id] S₀).1).2
          = [⟨id, TransitionKind.updated⟩]) := by
  refine ⟨?_, ?_, ?_, ?_⟩
  · intro s o v ho
    unfold normalize
    simp [ho]
  · intro s o ho
    unfold normalize
    simp [ho]
  · intro s
    rfl
  · intro S₀ id s f ov₁ ov₂ o v now₁ now₂ habs hf hov₁ ho hv hov₂
    have h1 : (reconcile now₁ ov₁ f [id] S₀).1
        = S₀ ++ [⟨id, normalize s (ov₁ id), now₁, now₁, now₁, Status.active⟩] := by
      rw [reconcile_single, hf, reconcileOne_none_found now₁ ov₁ s habs]
    have hfind1 : findRecord
        (S₀ ++ [⟨id, normalize s (ov₁ id), now₁, now₁, now₁, Status.active⟩]) id
        = some ⟨id, normalize s (ov₁ id), now₁, now₁, now₁, Status.active⟩ := by
      rw [findRecord_append, habs]
      simp
    have haddr1 : (normalize s (ov₁ id)).address = v := by
      rw [hov₁]
      unfold normalize
      simp [ho]
    have haddr2 : (normalize s (ov₂ id)).address = s.address := by
      rw [hov₂]
      rfl
    have hc : normalize s (ov₂ id) ≠ normalize s (ov₁ id) := by
      intro he
      apply hv
      rw [← haddr1, ← he]
      exact haddr2
    rw [h1, reconcile_single, hf,
      reconcileOne_active_found_ne now₂ ov₂ hfind1 rfl hc]
    rfl

/-- Witness for C9: the overlay table overriding the address of id "1" is
removed between two runs with identical scraped data, and the second run
reports an updated transition. -/
theorem overlay_precedence_witness :
    (reconcile 7 ovNone fetchA ["1"] (reconcile 5 ovAddr fetchA ["1"] []).1).2
      = [⟨"1", TransitionKind.updated⟩] :=
  overlay_precedence.2.2.2 [] "1" scrapedA fetchA ovAddr ovNone
    ⟨some "ov-addr", none⟩ "ov-addr" 5 7 rfl rfl (by decide) rfl (by decide) rfl



theorem splitChars_cons (sep c : Char) (cs : List Char) :
    splitChars sep (c :: cs) =
      if c = sep then [] :: splitChars sep cs
      else
        match splitChars sep cs with
        | [] => [[c]]
        | s :: rest => (c :: s) :: rest := rfl

theorem splitChars_no_sep {sep : Char} (l : List Char)
    (h : ∀ c ∈ l, ¬ c = sep) : splitChars sep l = [l] := by
  induction l with
  | nil => rfl
  | cons c cs ih =>
      rw [splitChars_cons, if_neg (h c (by simp))]
      rw [ih (fun x hx => h x (by simp [hx]))]

theorem splitChars_append {sep : Char} (a : List Char) (b : List Char)
    (ha : ∀ c ∈ a, ¬ c = sep) :
    splitChars sep (a ++ sep :: b) = a :: splitChars sep b := by
  induction a with
  | nil =>
      show splitChars sep (sep :: b) = [] :: splitChars sep b
      rw [splitChars_cons, if_pos rfl]
  | cons c a' ih =>
      show splitChars sep (c :: (a' ++ sep :: b)) = (c :: a') :: splitChars sep b
      rw [splitChars_cons, if_neg (ha c (by simp))]
      rw [ih (fun x hx => ha x (by simp [hx]))]

theorem splitChars_six {sep : Char} (a b c d e g : List Char)
    (ha : ∀ x ∈ a, ¬ x = sep) (hb : ∀ x ∈ b, ¬ x = sep)
    (hc : ∀ x ∈ c, ¬ x = sep) (hd : ∀ x ∈ d, ¬ x = sep)
    (he : ∀ x ∈ e, ¬ x = sep) (hg : ∀ x ∈ g, ¬ x = sep) :
    splitChars sep (a ++ sep :: (b ++ sep :: (c ++ sep :: (d ++ sep :: (e ++ sep :: g)))))
      = [a, b, c, d, e, g] := by
  rw [splitChars_append _ _ ha, splitChars_append _ _ hb,
    splitChars_append _ _ hc, splitChars_append _ _ hd,
    splitChars_append _ _ he, splitChars_no_sep _ hg]

theorem splitChars_five {sep : Char} (a b c d e : List Char)
    (ha : ∀ x ∈ a, ¬ x = sep) (hb : ∀ x ∈ b, ¬ x = sep)
    (hc : ∀ x ∈ c, ¬ x = sep) (hd : ∀ x ∈ d, ¬ x = sep)
    (he : ∀ x ∈ e, ¬ x = sep) :
    splitChars sep (a ++ sep :: (b ++ sep :: (c ++ sep :: (d ++ sep :: e))))
      = [a, b, c, d, e] := by
  rw [splitChars_append _ _ ha, splitChars_append _ _ hb,
    splitChars_append _ _ hc, splitChars_append _ _ hd,
    splitChars_no_sep _ he]

theorem digitChar_isDigit {d : Nat} (h : d < 10) :
    (Nat.digitChar d).isDigit = true := by
  interval_cases d <;> decide

theorem digitChar_toNat {d : Nat} (h : d < 10) :
    (Nat.digitChar d).toNat = 48 + d := by
  interval_cases d <;> decide

theorem isDigit_ne_slash {c : Char} (hc : c.isDigit = true) : ¬ c = '/' := by
  intro he
  subst he
  exact absurd hc (by decide)

theorem natToChars_digits (n : Nat) :
    ∀ c ∈ natToChars n, c.isDigit = true := by
  induction n using Nat.strong_induction_on with
  | _ n ih =>
      rw [natToChars]
      by_cases h : n < 10
      · rw [if_pos h]
        intro c hc
        rw [List.mem_singleton] at hc
        subst hc
        exact digitChar_isDigit h
      · rw [if_neg h]
        intro c hc
        rcases List.mem_append.mp hc with hc | hc
        · exact ih (n / 10) (Nat.div_lt_self (by omega) (by omega)) c hc
        · rw [List.mem_singleton] at hc
          subst hc
          exact digitChar_isDigit (Nat.mod_lt _ (by omega))

theorem natToChars_ne_nil (n : Nat) : natToChars n ≠ [] := by
  rw [natToChars]
  by_cases h : n < 10
  · rw [if_pos h]
    simp
  · rw [if_neg h]
    simp

theorem digitsVal_append_digit (l : List Char) (c : Char) :
    digitsVal (l ++ [c]) = 10 * digitsVal l + (c.toNat - 48) := by
  unfold digitsVal
  rw [List.foldl_append]
  rfl

theorem digitsVal_natToChars (n : Nat) : digitsVal (natToChars n) = n := by
  induction n using Nat.strong_induction_on with
  | _ n ih =>
      rw [natToChars]
      by_cases h : n < 10
      · rw [if_pos h]
        show digitsVal ([] ++ [Nat.digitChar n]) = n
        rw [digitsVal_append_digit, digitChar_toNat h]
        show 10 * 0 + (48 + n - 48) = n
        omega
      · rw [if_neg h]
        rw [digitsVal_append_digit,
          ih (n / 10) (Nat.div_lt_self (by omega) (by omega)),
          digitChar_toNat (Nat.mod_lt _ (by omega))]
        omega

theorem takeWhile_digits (l : List Char) (h : ∀ c ∈ l, c.isDigit = true) :
    l.takeWhile Char.isDigit = l := by
  induction l with
  | nil => rfl
  | cons c cs ih =>
      rw [List.takeWhile_cons, if_pos (h c (by simp))]
      rw [ih (fun x hx => h x (by simp [hx]))]

theorem jsParseInt_of_digits (l : List Char) (hne : l ≠ [])
    (h : ∀ c ∈ l, c.isDigit = true) :
    jsParseInt (some (String.mk l)) = some (digitsVal l) := by
  unfold jsParseInt
  simp only []
  rw [takeWhile_digits l h]
  rw [if_neg (by simp [List.isEmpty_iff, hne])]

theorem pad2_data (n : Nat) :
    (pad2 n).data = if n < 10 then '0' :: natToChars n else natToChars n := by
  unfold pad2 natStr
  by_cases h : n < 10
  · rw [if_pos h, if_pos h]
  · rw [if_neg h, if_neg h]

theorem pad2_digits (n : Nat) : ∀ c ∈ (pad2 n).data, c.isDigit = true := by
  rw [pad2_data]
  by_cases h : n < 10
  · rw [if_pos h]
    intro c hc
    rcases List.mem_cons.mp hc with hc | hc
    · subst hc
      decide
    · exact natToChars_digits n c hc
  · rw [if_neg h]
    exact natToChars_digits n

theorem pad2_data_ne_nil (n : Nat) : (pad2 n).data ≠ [] := by
  rw [pad2_data]
  by_cases h : n < 10
  · rw [if_pos h]
    simp
  · rw [if_neg h]
    exact natToChars_ne_nil n

theorem digitsVal_pad2 (n : Nat) : digitsVal (pad2 n).data = n := by
  rw [pad2_data]
  by_cases h : n < 10
  · rw [if_pos h]
    show digitsVal ('0' :: natToChars n) = n
    have : digitsVal ('0' :: natToChars n) = digitsVal (natToChars n) := rfl
    rw [this, digitsVal_natToChars]
  · rw [if_neg h]
    exact digitsVal_natToChars n

theorem jsParseInt_natStr (n : Nat) : jsParseInt (some (natStr n)) = some n := by
  unfold natStr
  rw [jsParseInt_of_digits _ (natToChars_ne_nil n) (natToChars_digits n),
    digitsVal_natToChars]

theorem jsParseInt_pad2 (n : Nat) : jsParseInt (some (pad2 n)) = some n := by
  have h : pad2 n = String.mk (pad2 n).data := rfl
  rw [h, jsParseInt_of_digits _ (pad2_data_ne_nil n) (pad2_digits n),
    digitsVal_pad2]



theorem natStr_no_slash (n : Nat) : ∀ x ∈ (natStr n).data, ¬ x = '/' :=
  fun x hx => isDigit_ne_slash (natToChars_digits n x hx)

theorem pad2_no_slash (n : Nat) : ∀ x ∈ (pad2 n).data, ¬ x = '/' :=
  fun x hx => isDigit_ne_slash (pad2_digits n x hx)

theorem filename_no_slash (uuid : String) (hu : ∀ c ∈ uuid.data, ¬ c = '/') :
    ∀ x ∈ uuid.data ++ ['.','j','p','g'], ¬ x = '/' := by
  intro x hx
  rcases List.mem_append.mp hx with h | h
  · exact hu x h
  · fin_cases h <;> decide

theorem jsSplit_thumb (n year month : Nat) (uuid : String)
    (hu : ∀ c ∈ uuid.data, ¬ c = '/') :
    jsSplit '/' ("photos/thumb/" ++ natStr n ++ "/" ++ natStr year ++ "/" ++ pad2 month ++ "/" ++ uuid ++ ".jpg")
      = ["photos", "thumb", natStr n, natStr year, pad2 month, uuid ++ ".jpg"] := by
  unfold jsSplit
  have hdata : ("photos/thumb/" ++ natStr n ++ "/" ++ natStr year ++ "/" ++ pad2 month ++ "/" ++ uuid ++ ".jpg").data
      = ['p','h','o','t','o','s'] ++ '/' :: (['t','h','u','m','b'] ++ '/' :: ((natStr n).data ++ '/' :: ((natStr year).data ++ '/' :: ((pad2 month).data ++ '/' :: (uuid.data ++ ['.','j','p','g']))))) := by
    simp only [String.data_append]
    simp [List.append_assoc]
  rw [hdata]
  rw [splitChars_six ['p','h','o','t','o','s'] ['t','h','u','m','b']
    (natStr n).data (natStr year).data (pad2 month).data (uuid.data ++ ['.','j','p','g'])
    (by decide) (by decide) (natStr_no_slash n) (natStr_no_slash year)
    (pad2_no_slash month) (filename_no_slash uuid hu)]
  rfl

theorem jsSplit_original (year month : Nat) (uuid : String)
    (hu : ∀ c ∈ uuid.data, ¬ c = '/') :
    jsSplit '/' ("photos/original/" ++ natStr year ++ "/" ++ pad2 month ++ "/" ++ uuid ++ ".jpg")
      = ["photos", "original", natStr year, pad2 month, uuid ++ ".jpg"] := by
  unfold jsSplit
  have hdata : ("photos/original/" ++ natStr year ++ "/" ++ pad2 month ++ "/" ++ uuid ++ ".jpg").data
      = ['p','h','o','t','o','s'] ++ '/' :: (['o','r','i','g','i','n','a','l'] ++ '/' :: ((natStr year).data ++ '/' :: ((pad2 month).data ++ '/' :: (uuid.data ++ ['.','j','p','g'])))) := by
    simp only [String.data_append]
    simp [List.append_assoc]
  rw [hdata]
  rw [splitChars_five ['p','h','o','t','o','s'] ['o','r','i','g','i','n','a','l']
    (natStr year).data (pad2 month).data (uuid.data ++ ['.','j','p','g'])
    (by decide) (by decide) (natStr_no_slash year)
    (pad2_no_slash month) (filename_no_slash uuid hu)]
  rfl

theorem parse_thumb_key (n year month : Nat) (uuid : String) (hn : n ≠ 0)
    (hu : ∀ c ∈ uuid.data, ¬ c = '/') :
    parseStorageKey (generateStorageKey StorageType.thumb (some n) year month uuid)
      = Except.ok ⟨StorageType.thumb, some n, some year, some month, some (uuid ++ ".jpg")⟩ := by
  unfold generateStorageKey
  simp only []
  rw [if_pos hn]
  unfold parseStorageKey
  rw [jsSplit_thumb n year month uuid hu]
  simp [jsParseInt_natStr, jsParseInt_pad2]

theorem parse_original_key (size : Option Nat) (year month : Nat) (uuid : String)
    (hu : ∀ c ∈ uuid.data, ¬ c = '/') :
    parseStorageKey (generateStorageKey StorageType.original size year month uuid)
      = Except.ok ⟨StorageType.original, none, some year, some month, some (uuid ++ ".jpg")⟩ := by
  unfold generateStorageKey
  simp only []
  unfold parseStorageKey
  rw [jsSplit_original year month uuid hu]
  simp [jsParseInt_natStr, jsParseInt_pad2]

theorem parse_thumb_nosize_key (year month : Nat) (uuid : String)
    (hu : ∀ c ∈ uuid.data, ¬ c = '/') :
    parseStorageKey (generateStorageKey StorageType.thumb none year month uuid)
      = Except.ok ⟨StorageType.original, none, some year, some month, some (uuid ++ ".jpg")⟩ := by
  unfold generateStorageKey
  simp only []
  unfold parseStorageKey
  rw [jsSplit_original year month uuid hu]
  simp [jsParseInt_natStr, jsParseInt_pad2]

/-- C10: storage key round trip — for either type and any positive size,
parsing the generated key succeeds (the parts-length guard never fires) and
recovers the type, the year and month the key was generated at and the
generated uuid filename; in the 5-segment original case the shifted
destructuring still recovers year, month and filename, and a thumb request
without a size produces an original-format key that parses as original.
The uuid contains no slash, as crypto.randomUUID guarantees. -/
theorem storage_key_roundtrip :
    (∀ (size year month : Nat) (uuid : String), 0 < size →
      (∀ c ∈ uuid.data, ¬ c = '/') →
      parseStorageKey (generateStorageKey StorageType.thumb (some size) year month uuid)
        = Except.ok ⟨StorageType.thumb, some size, some year, some month, some (uuid ++ ".jpg")⟩)
    ∧ (∀ (size : Option Nat) (year month : Nat) (uuid : String),
      (∀ c ∈ uuid.data, ¬ c = '/') →
      parseStorageKey (generateStorageKey StorageType.original size year month uuid)
        = Except.ok ⟨StorageType.original, none, some year, some month, some (uuid ++ ".jpg")⟩)
    ∧ (∀ (year month : Nat) (uuid : String), (∀ c ∈ uuid.data, ¬ c = '/') →
      parseStorageKey (generateStorageKey StorageType.thumb none year month uuid)
        = Except.ok ⟨StorageType.original, none, some year, some month, some (uuid ++ ".jpg")⟩) := by
  refine ⟨?_, ?_, ?_⟩
  · intro size year month uuid hs hu
    exact parse_thumb_key size year month uuid (by omega) hu
  · intro size year month uuid hu
    exact parse_original_key size year month uuid hu
  · intro year month uuid hu
    exact parse_thumb_nosize_key year month uuid hu

/-- Witness for C10 at a concrete size, date and uuid. -/
theorem storage_key_roundtrip_witness :
    0 < 320
    ∧ parseStorageKey (generateStorageKey StorageType.thumb (some 320) 2025 9 "ab-cd")
        = Except.ok ⟨StorageType.thumb, some 320, some 2025, some 9, some ("ab-cd" ++ ".jpg")⟩
    ∧ parseStorageKey (generateStorageKey StorageType.thumb none 2025 9 "ab-cd")
        = Except.ok ⟨StorageType.original, none, some 2025, some 9, some ("ab-cd" ++ ".jpg")⟩ :=
  ⟨by decide,
   storage_key_roundtrip.1 320 2025 9 "ab-cd" (by decide) (by decide),
   storage_key_roundtrip.2.2 2025 9 "ab-cd" (by decide)⟩


end Pokefuta
